import Mathlib

/-!
Verification of the numeric utilities in `audiocraft/utils/utils.py`:
the masked multi-codebook cross-entropy kernel, the top-k / top-p
sampling routines and their shared multinomial primitive, the hash
trick, and recursive state copying.

Tensors are modelled PyTorch-style as a shape together with row-major
flat data.  Float arithmetic is idealised as exact arithmetic: the
cross-entropy kernel (which uses `exp`, `log`, `tanh`) is modelled over
the reals, while the sampling routines (ordered-field operations only)
are modelled over the rationals so that they are executable.  Division
by zero yields `0` in this model; in the float code it yields `NaN`,
which `torch.multinomial` then rejects — the model instead rejects the
resulting all-zero weight row, giving the same observable outcome.  The
pseudo-random multinomial draw is modelled by an oracle `draw` giving
the drawn local index for each row; a draw is only possible at an index
of positive weight.
-/

namespace AudiocraftUtils

variable {α β γ : Type} {ε : Type}

/-- A PyTorch-style tensor: a shape and row-major flat data. -/
structure Tensor (α : Type) where
  shape : List Nat
  data : List α
deriving DecidableEq

/-- Errors raised inside the cross-entropy kernel: a failed shape
assertion (lines 110–111 of the source) or an out-of-range index in
`torch.gather`. -/
inductive CEErr
  | shapeMismatch
  | indexError
deriving DecidableEq

/-- Splitting a list into contiguous chunks of size `s` (the last chunk
may be shorter); `torch.chunk(x, n)` along dim 0 is `chunkBy ⌈len/n⌉`. -/
def chunkBy : Nat → List α → List (List α)
  | _, [] => []
  | 0, l => [l]
  | s + 1, x :: l => ((x :: l).take (s + 1)) :: chunkBy (s + 1) (l.drop s)
termination_by _ l => l.length
decreasing_by simp [List.length_drop]; omega

/-- The split `torch.chunk(x, 4)` along the first dimension. -/
def chunk4 (l : List α) : List (List α) := chunkBy ((l.length + 3) / 4) l

/-- Effectful map over a list in the `Except` monad: stops at the first
error, otherwise returns the list of results. -/
def exMapM (f : α → Except ε β) : List α → Except ε (List β)
  | [] => .ok []
  | a :: as =>
    match f a with
    | .error e => .error e
    | .ok b =>
      match exMapM f as with
      | .error e => .error e
      | .ok bs => .ok (b :: bs)

/-- The reduction `torch.logsumexp` of one row of logits: the log-partition function. -/
noncomputable def logsumexp (row : List ℝ) : ℝ :=
  Real.log ((row.map Real.exp).sum)

/-- The soft-clip nonlinearity `logits_soft_clip * tanh(x / logits_soft_clip)`
(line 127 of the source). -/
noncomputable def softClipFn (c x : ℝ) : ℝ := c * Real.tanh (x / c)

/-- Optional soft clipping of a row of logits (lines 126–127). -/
noncomputable def softClipApply : Option ℝ → List ℝ → List ℝ
  | none, row => row
  | some c, row => row.map (softClipFn c)

/-- The lookup `torch.gather` of a single element along the class dimension: fails
on an out-of-range index, as `torch.gather` does. -/
def gatherOne (row : List ℝ) (t : ℤ) : Except CEErr ℝ :=
  if h : 0 ≤ t ∧ t.toNat < row.length then .ok (row.get ⟨t.toNat, h.2⟩)
  else .error .indexError

/-- Per-row body of the chunk loop of `cross_entropy` (lines 125–132):
cast to the working dtype (the identity in this exact real-valued
model), optional soft clip, then log-partition minus the logit gathered
at the target class. -/
noncomputable def ceRow (sc : Option ℝ) (row : List ℝ) (t : ℤ) : Except CEErr ℝ :=
  let row' := softClipApply sc row
  (gatherOne row' t).map (fun g => logsumexp row' - g)

/-- One `(logits_chunk, targets_chunk)` iteration of the loop at line
124 of the source, with the trailing `[..., 0]` squeeze folded in. -/
noncomputable def processChunk (sc : Option ℝ) (lc : List (List ℝ)) (tc : List ℤ) :
    Except CEErr (List ℝ) :=
  exMapM (fun rt => ceRow sc rt.1 rt.2) (lc.zip tc)

/-- The kernel `cross_entropy(logits, targets, mask, dtype, logits_soft_clip)`
(lines 91–136 of the source): assert the shape invariants, flatten,
replace targets at masked-out positions by the safe placeholder `0`,
process the rows in 4 chunks (clip, log-partition, gather), concatenate,
zero the masked-out positions and reshape to the target shape.  The
`dtype` cast is the identity in this exact real-valued model. -/
noncomputable def cross_entropy (logits : Tensor ℝ) (targets : Tensor ℤ)
    (mask : Tensor Bool) (sc : Option ℝ) : Except CEErr (Tensor ℝ) :=
  if logits.shape.dropLast = targets.shape ∧ mask.shape = targets.shape then
    match exMapM (fun pc => processChunk sc pc.1 pc.2)
        ((chunk4 (chunkBy (logits.shape.getLastD 0) logits.data)).zip
          (chunk4 (List.zipWith (fun m t => if m then t else 0) mask.data targets.data))) with
    | .error e => .error e
    | .ok chunks =>
      .ok ⟨targets.shape, List.zipWith (fun m c => if m then c else 0) mask.data chunks.flatten⟩
  else .error .shapeMismatch

/-- The comparison used to model `torch.sort(descending=True)` on
`(original index, value)` pairs; ties keep the original order. -/
def descRel (a b : Nat × ℚ) : Prop := b.2 ≤ a.2

instance : DecidableRel descRel := fun a b => inferInstanceAs (Decidable (b.2 ≤ a.2))

instance : IsTotal (Nat × ℚ) descRel := ⟨fun a b => le_total b.2 a.2⟩

instance : IsTrans (Nat × ℚ) descRel := ⟨fun _ _ _ hab hbc => le_trans hbc hab⟩

/-- The sort `torch.sort(probs, descending=True)` on one row: the `(original
index, value)` pairs sorted by decreasing value. -/
def sortDesc (l : List ℚ) : List (Nat × ℚ) := List.insertionSort descRel l.enum

/-- The tensor `probs_sort`: the row's values in descending order. -/
def probsSortRow (l : List ℚ) : List ℚ := (sortDesc l).map Prod.snd

/-- The tensor `probs_idx`: the descending-sort permutation as original class indices. -/
def probsIdxRow (l : List ℚ) : List Nat := (sortDesc l).map Prod.fst

/-- The scan `torch.cumsum` with a running accumulator `acc`. -/
def cumsumFrom (acc : ℚ) : List ℚ → List ℚ
  | [] => []
  | x :: xs => (acc + x) :: cumsumFrom (acc + x) xs

/-- The scan `torch.cumsum` along a row: inclusive running sums. -/
def cumsum (l : List ℚ) : List ℚ := cumsumFrom 0 l

/-- Lines 184–187 of `sample_top_p`, for one row: sort descending and
zero out every class whose exclusive cumulative probability exceeds `p`
(`mask = probs_sum - probs_sort > p; probs_sort *= (~mask).float()`). -/
def topPMaskRow (l : List ℚ) (p : ℚ) : List ℚ :=
  List.zipWith (fun s c => if p < c - s then 0 else s) (probsSortRow l) (cumsum (probsSortRow l))

/-- Line 188: renormalise the masked row by its sum.  In the float code
a zero sum yields `NaN`s which `torch.multinomial` rejects; in this
exact model division by zero yields an all-zero row, which the
multinomial primitive below also rejects. -/
def topPRow (l : List ℚ) (p : ℚ) : List ℚ :=
  let m := topPMaskRow l p
  m.map (fun x => x / m.sum)

/-- The primitive `multinomial(input, num_samples=1)` (lines 139–157), with the random
draw modelled by an oracle `draw` giving the chosen local index for each
row: flatten to rows of size `shape[-1]`, require at least one category,
non-negative weights and positive weight at each drawn index (an index
of zero weight is never produced by `torch.multinomial`, and a row with
no positive weight makes it raise), and return the drawn indices with
shape `input.shape[:-1] ++ [1]`. -/
def multinomial (input : Tensor ℚ) (draw : Nat → Nat) : Option (Tensor Nat) :=
  let C := input.shape.getLastD 0
  let rows := chunkBy C input.data
  if 0 < C ∧ (∀ r ∈ rows, ∀ x ∈ r, 0 ≤ x) ∧
      (∀ i < rows.length, 0 < (rows.getD i []).getD (draw i) 0) then
    some ⟨input.shape.dropLast ++ [1], (List.range rows.length).map draw⟩
  else none

/-- The sampler `sample_top_k(probs, k)` (lines 160–172): `torch.topk` (which fails
unless `0 ≤ k ≤ shape[-1]`), a multinomial draw over the `k` selected
probabilities used directly as unnormalised weights (no renormalisation
step), and a gather mapping the drawn local index back to the original
class index. -/
def sample_top_k (probs : Tensor ℚ) (k : ℤ) (draw : Nat → Nat) : Option (Tensor Nat) :=
  let C := probs.shape.getLastD 0
  if 0 ≤ k ∧ k ≤ (C : ℤ) then
    let rows := chunkBy C probs.data
    let tks := rows.map (fun r => (sortDesc r).take k.toNat)
    match multinomial ⟨probs.shape.dropLast ++ [k.toNat],
        (tks.map (fun t => t.map Prod.snd)).flatten⟩ draw with
    | none => none
    | some nt =>
      some ⟨nt.shape, (List.range rows.length).map
        (fun i => ((tks.getD i []).map Prod.fst).getD (nt.data.getD i 0) 0)⟩
  else none

/-- The sampler `sample_top_p(probs, p)` (lines 175–191): per row, sort descending,
zero the classes whose exclusive cumulative probability exceeds `p`,
renormalise, draw one sample via the multinomial primitive, and map the
drawn local index back through the descending-sort permutation. -/
def sample_top_p (probs : Tensor ℚ) (p : ℚ) (draw : Nat → Nat) : Option (Tensor Nat) :=
  let C := probs.shape.getLastD 0
  let rows := chunkBy C probs.data
  match multinomial ⟨probs.shape, (rows.map (fun r => topPRow r p)).flatten⟩ draw with
  | none => none
  | some nt =>
    some ⟨nt.shape, (List.range rows.length).map
      (fun i => (probsIdxRow (rows.getD i [])).getD (nt.data.getD i 0) 0)⟩

/-- The function `hash_trick(word, vocab_size)` (lines 253–263), with SHA-256 (a
standard-library function, not code of this repository) abstracted as a
parameter `sha256hex` giving the integer value of the hex digest of the
UTF-8 encoding of the word. -/
def hash_trick (sha256hex : String → Nat) (word : String) (vocab_size : Nat) : Nat :=
  sha256hex word % vocab_size

/-- A Python value as handled by `copy_state`: a tensor, a dict, a
list, or any other value (int, float, str, None, ...). -/
inductive PyVal
  | tensor (t : Tensor ℚ)
  | dict (entries : List (String × PyVal))
  | list (items : List PyVal)
  | int (n : ℤ)
  | float (q : ℚ)
  | str (s : String)
  | none

mutual

/-- The function `copy_state(state, device, dtype)` (lines 268–277): a tensor is
copied (`detach().to(..., copy=True)` is value-preserving; device
placement and dtype casting are not modelled), dicts and lists are
copied recursively, and any other value falls through the `if` chain so
that the function implicitly returns `None`. -/
def copy_state : PyVal → PyVal
  | .tensor t => .tensor t
  | .dict es => .dict (copyEntries es)
  | .list xs => .list (copyItems xs)
  | _ => .none

/-- The dict comprehension on line 275 of the source. -/
def copyEntries : List (String × PyVal) → List (String × PyVal)
  | [] => []
  | kv :: rest => (kv.1, copy_state kv.2) :: copyEntries rest

/-- The list comprehension on line 277 of the source. -/
def copyItems : List PyVal → List PyVal
  | [] => []
  | x :: rest => copy_state x :: copyItems rest

end

/-! ### List infrastructure lemmas -/

lemma getD_zipWith (f : α → β → γ) (l₁ : List α) (l₂ : List β) (i : Nat)
    (d₁ : α) (d₂ : β) (d : γ) (h₁ : i < l₁.length) (h₂ : i < l₂.length) :
    (List.zipWith f l₁ l₂).getD i d = f (l₁.getD i d₁) (l₂.getD i d₂) := by
  rw [List.getD_eq_getElem _ _ (by simp [List.length_zipWith]; omega),
    List.getD_eq_getElem _ _ h₁, List.getD_eq_getElem _ _ h₂, List.getElem_zipWith]

lemma getD_map (f : α → β) (l : List α) (i : Nat) (d : β) (d' : α) (h : i < l.length) :
    (l.map f).getD i d = f (l.getD i d') := by
  rw [List.getD_eq_getElem _ _ (by simpa using h), List.getD_eq_getElem _ _ h,
    List.getElem_map]

lemma getD_zip (l₁ : List α) (l₂ : List β) (i : Nat) (d₁ : α) (d₂ : β)
    (h₁ : i < l₁.length) (h₂ : i < l₂.length) :
    (l₁.zip l₂).getD i (d₁, d₂) = (l₁.getD i d₁, l₂.getD i d₂) := by
  rw [List.getD_eq_getElem _ _ (by simp [List.length_zip]; omega),
    List.getD_eq_getElem _ _ h₁, List.getD_eq_getElem _ _ h₂, List.getElem_zip]

lemma getD_range_map (f : Nat → α) (n i : Nat) (d : α) (h : i < n) :
    ((List.range n).map f).getD i d = f i := by
  rw [List.getD_eq_getElem _ _ (by simpa using h), List.getElem_map, List.getElem_range]

lemma take_zip' : ∀ (n : Nat) (a : List α) (b : List β),
    (a.zip b).take n = (a.take n).zip (b.take n) := by
  intro n
  induction n with
  | zero => simp
  | succ m ih =>
    intro a b
    cases a with
    | nil => simp
    | cons x xs =>
      cases b with
      | nil => simp
      | cons y ys => simp [List.take_succ_cons, ih]

lemma drop_zip' : ∀ (n : Nat) (a : List α) (b : List β),
    (a.zip b).drop n = (a.drop n).zip (b.drop n) := by
  intro n
  induction n with
  | zero => simp
  | succ m ih =>
    intro a b
    cases a with
    | nil => simp
    | cons x xs =>
      cases b with
      | nil => simp
      | cons y ys => simp [List.drop_succ_cons, ih]

/-! ### Chunking lemmas -/

lemma chunkBy_flatten : ∀ (s : Nat) (l : List α), (chunkBy s l).flatten = l := by
  intro s l
  induction s, l using chunkBy.induct with
  | case1 s => rw [chunkBy]; rfl
  | case2 l hne => simp [chunkBy]
  | case3 s x l ih =>
    rw [chunkBy, List.flatten_cons, ih, ← List.drop_succ_cons (a := x) (l := l) (n := s),
      List.take_append_drop]

lemma mem_of_mem_chunkBy {s : Nat} {l : List α} {c : List α} {x : α}
    (hc : c ∈ chunkBy s l) (hx : x ∈ c) : x ∈ l := by
  have : x ∈ (chunkBy s l).flatten := List.mem_flatten.2 ⟨c, hc, hx⟩
  rwa [chunkBy_flatten] at this

lemma chunkBy_flatten_uniform {C : Nat} (hC : 0 < C) :
    ∀ (rows : List (List α)), (∀ r ∈ rows, r.length = C) →
      chunkBy C rows.flatten = rows := by
  intro rows
  induction rows with
  | nil => intro _; simp [chunkBy]
  | cons r rest ih =>
    intro hlen
    obtain ⟨s, rfl⟩ : ∃ s, C = s + 1 := ⟨C - 1, by omega⟩
    have hr : r.length = s + 1 := hlen r (by simp)
    obtain ⟨a, r', rfl⟩ : ∃ a r', r = a :: r' := by
      cases r with
      | nil => simp at hr
      | cons a r' => exact ⟨a, r', rfl⟩
    have hr' : r'.length = s := by simpa using hr
    rw [List.flatten_cons, List.cons_append, chunkBy]
    have htake : (a :: (r' ++ rest.flatten)).take (s + 1) = a :: r' := by
      rw [List.take_succ_cons, ← hr', List.take_left]
    have hdrop : (r' ++ rest.flatten).drop s = rest.flatten := by
      rw [← hr', List.drop_left]
    rw [htake, hdrop, ih (fun r hr => hlen r (by simp [hr]))]

lemma chunk_zip_flatten : ∀ (s : Nat) (a : List α) (b : List β), a.length = b.length →
    (((chunkBy s a).zip (chunkBy s b)).map (fun pc => pc.1.zip pc.2)).flatten = a.zip b := by
  intro s a
  induction s, a using chunkBy.induct with
  | case1 s =>
    intro b hb
    obtain rfl : b = [] := List.length_eq_zero.1 (by simpa using hb.symm)
    simp [chunkBy]
  | case2 l hne =>
    intro b hb
    cases b with
    | nil => exact (hne (List.length_eq_zero.1 (by simpa using hb))).elim
    | cons y m =>
      have h1 : chunkBy 0 l = [l] := by
        rw [chunkBy]
        exact hne
      have h2 : chunkBy 0 (y :: m) = [y :: m] := by
        rw [chunkBy]
        simp
      rw [h1, h2]
      simp
  | case3 s x l ih =>
    intro b hb
    cases b with
    | nil => simp at hb
    | cons y m =>
      have hlm : l.length = m.length := by simpa using hb
      rw [chunkBy, chunkBy, List.zip_cons_cons, List.map_cons, List.flatten_cons,
        ih (m.drop s) (by simp [hlm]),
        ← List.drop_succ_cons (a := x) (l := l) (n := s),
        ← List.drop_succ_cons (a := y) (l := m) (n := s),
        ← take_zip', ← drop_zip', List.take_append_drop]

/-! ### `exMapM` lemmas -/

lemma exMapM_ok_map (f : α → Except ε β) (g : α → β) :
    ∀ l : List α, (∀ x ∈ l, f x = .ok (g x)) → exMapM f l = .ok (l.map g) := by
  intro l
  induction l with
  | nil => intro _; rfl
  | cons a as ih =>
    intro h
    rw [exMapM, h a (by simp), ih (fun x hx => h x (by simp [hx])), List.map_cons]

/-! ### Cross-entropy evaluation -/

lemma chunk4_zip_flatten_map (f : α × β → γ) (a : List α) (b : List β)
    (h : a.length = b.length) :
    (((chunk4 a).zip (chunk4 b)).map (fun pc => (pc.1.zip pc.2).map f)).flatten =
      (a.zip b).map f := by
  have hstep : ((chunk4 a).zip (chunk4 b)).map (fun pc => (pc.1.zip pc.2).map f) =
      (((chunk4 a).zip (chunk4 b)).map (fun pc => pc.1.zip pc.2)).map (List.map f) := by
    rw [List.map_map]
    rfl
  have hs : (b.length + 3) / 4 = (a.length + 3) / 4 := by rw [h]
  rw [hstep, ← List.map_flatten, chunk4, chunk4, hs, chunk_zip_flatten _ a b h]

lemma softClipApply_length (sc : Option ℝ) (row : List ℝ) :
    (softClipApply sc row).length = row.length := by
  cases sc <;> simp [softClipApply]

/-- The value computed by `ceRow` when the gather succeeds: log-partition
minus the (soft-clipped) logit at the target class. -/
noncomputable def ceVal (sc : Option ℝ) (row : List ℝ) (t : ℤ) : ℝ :=
  logsumexp (softClipApply sc row) - (softClipApply sc row).getD t.toNat 0

lemma ceRow_ok (sc : Option ℝ) (row : List ℝ) (t : ℤ) (h0 : 0 ≤ t)
    (hlt : t.toNat < row.length) : ceRow sc row t = .ok (ceVal sc row t) := by
  have hlt' : t.toNat < (softClipApply sc row).length := by
    rwa [softClipApply_length]
  simp only [ceRow, gatherOne]
  rw [dif_pos ⟨h0, hlt'⟩]
  simp only [Except.map, ceVal]
  rw [List.getD_eq_getElem _ _ hlt']
  rfl

/-- Full evaluation of `cross_entropy` on well-formed inputs whose targets
are in range at all masked-in positions. -/
lemma cross_entropy_ok (shp : List Nat) (C : Nat) (rows : List (List ℝ)) (ts : List ℤ)
    (ms : List Bool) (sc : Option ℝ) (hC : 0 < C) (hrows : ∀ r ∈ rows, r.length = C)
    (hts : ts.length = rows.length) (hms : ms.length = rows.length)
    (hin : ∀ i, i < rows.length → ms.getD i false = true →
      0 ≤ ts.getD i 0 ∧ (ts.getD i 0).toNat < C) :
    cross_entropy ⟨shp ++ [C], rows.flatten⟩ ⟨shp, ts⟩ ⟨shp, ms⟩ sc =
      .ok ⟨shp, List.zipWith (fun m c => if m then c else 0) ms
        ((rows.zip (List.zipWith (fun m t => if m then t else 0) ms ts)).map
          (fun rt => ceVal sc rt.1 rt.2))⟩ := by
  have hsafeLen : (List.zipWith (fun m t => if m then t else 0) ms ts).length =
      rows.length := by
    rw [List.length_zipWith]
    omega
  have hsafeMem : ∀ t' ∈ List.zipWith (fun m t => if m then t else 0) ms ts,
      0 ≤ t' ∧ t'.toNat < C := by
    intro t' ht'
    obtain ⟨i, hi, hget⟩ := List.mem_iff_getElem.1 ht'
    rw [List.length_zipWith] at hi
    have hims : i < ms.length := by omega
    have hits : i < ts.length := by omega
    have hi' : i < rows.length := by omega
    simp only [List.getElem_zipWith] at hget
    by_cases hm : ms[i] = true
    · have h := hin i hi' (by rw [List.getD_eq_getElem _ _ hims]; exact hm)
      rw [List.getD_eq_getElem _ _ hits] at h
      rw [← hget, hm, if_pos rfl]
      exact h
    · rw [← hget, if_neg (by simpa using hm)]
      exact ⟨le_refl 0, by simpa using hC⟩
  have hcond : ((⟨shp ++ [C], rows.flatten⟩ : Tensor ℝ).shape.dropLast =
      (⟨shp, ts⟩ : Tensor ℤ).shape ∧
      (⟨shp, ms⟩ : Tensor Bool).shape = (⟨shp, ts⟩ : Tensor ℤ).shape) :=
    ⟨List.dropLast_concat, rfl⟩
  have hlast : ((⟨shp ++ [C], rows.flatten⟩ : Tensor ℝ).shape).getLastD 0 = C :=
    List.getLastD_concat _ _ _
  have hprocess : ∀ pc ∈ (chunk4 rows).zip
        (chunk4 (List.zipWith (fun m t => if m then t else 0) ms ts)),
      processChunk sc pc.1 pc.2 =
        .ok ((pc.1.zip pc.2).map (fun rt => ceVal sc rt.1 rt.2)) := by
    intro pc hpc
    obtain ⟨c₁, c₂⟩ := pc
    obtain ⟨hc₁, hc₂⟩ := List.of_mem_zip hpc
    apply exMapM_ok_map
    intro rt hrt
    obtain ⟨hr, ht⟩ := List.of_mem_zip (by simpa using hrt)
    have hrow : rt.1 ∈ rows := mem_of_mem_chunkBy (by simpa [chunk4] using hc₁) hr
    have htgt : rt.2 ∈ List.zipWith (fun m t => if m then t else 0) ms ts :=
      mem_of_mem_chunkBy (by simpa [chunk4] using hc₂) ht
    exact ceRow_ok sc rt.1 rt.2 (hsafeMem rt.2 htgt).1
      (by rw [hrows rt.1 hrow]; exact (hsafeMem rt.2 htgt).2)
  have hmain := exMapM_ok_map _ _ _ hprocess
  rw [cross_entropy, if_pos hcond]
  dsimp only
  rw [hlast, chunkBy_flatten_uniform hC rows hrows, hmain]
  dsimp only
  rw [chunk4_zip_flatten_map _ rows
    (List.zipWith (fun m t => if m then t else 0) ms ts) hsafeLen.symm]

/-- The value of `cross_entropy` at a masked-in position `i`: `ceVal` of
the row's logits and the target there. -/
lemma cross_entropy_value_at (shp : List Nat) (C : Nat) (rows : List (List ℝ))
    (ts : List ℤ) (ms : List Bool) (sc : Option ℝ) (hC : 0 < C)
    (hrows : ∀ r ∈ rows, r.length = C) (hts : ts.length = rows.length)
    (hms : ms.length = rows.length)
    (hin : ∀ i, i < rows.length → ms.getD i false = true →
      0 ≤ ts.getD i 0 ∧ (ts.getD i 0).toNat < C)
    (i : Nat) (hi : i < rows.length) (hmi : ms.getD i false = true) :
    ∃ out : Tensor ℝ,
      cross_entropy ⟨shp ++ [C], rows.flatten⟩ ⟨shp, ts⟩ ⟨shp, ms⟩ sc = .ok out ∧
      out.data.getD i 0 = ceVal sc (rows.getD i []) (ts.getD i 0) := by
  refine ⟨_, cross_entropy_ok shp C rows ts ms sc hC hrows hts hms hin, ?_⟩
  have hsl : (List.zipWith (fun m t => if m then t else 0) ms ts).length =
      rows.length := by
    simp only [List.length_zipWith]
    omega
  have hzl : (rows.zip (List.zipWith (fun m t => if m then t else 0) ms ts)).length =
      rows.length := by
    simp only [List.length_zip, List.length_zipWith]
    omega
  have hml : i < ((rows.zip (List.zipWith (fun m t => if m then t else 0) ms ts)).map
      (fun rt => ceVal sc rt.1 rt.2)).length := by
    simp only [List.length_map]
    omega
  rw [getD_zipWith (fun m c => if m then c else 0) ms _ i false 0 0 (by omega) hml, hmi]
  rw [getD_map _ _ i 0 ([], 0) (by omega)]
  rw [getD_zip rows _ i [] 0 hi (by omega)]
  rw [getD_zipWith (fun m t => if m then t else 0) ms ts i false 0 0 (by omega) (by omega),
    hmi]
  simp

/-! ### Claim theorems: cross entropy -/

/-- C1: for logits of shape `shp ++ [C]` with well-formed rows, targets
and mask of shape `shp`, and targets in range at every masked-in
position, `cross_entropy` returns without error — the targets at
masked-out positions are arbitrary integers, including out-of-range
ones, because they are replaced by the safe placeholder `0` before the
gather — and the returned tensor is exactly `0` at every position where
the mask is `False`, regardless of the logit and target values there. -/
theorem cross_entropy_masked_zero_safe (shp : List Nat) (C : Nat)
    (rows : List (List ℝ)) (ts : List ℤ) (ms : List Bool) (sc : Option ℝ)
    (hC : 0 < C) (hrows : ∀ r ∈ rows, r.length = C)
    (hts : ts.length = rows.length) (hms : ms.length = rows.length)
    (hin : ∀ i, i < rows.length → ms.getD i false = true →
      0 ≤ ts.getD i 0 ∧ (ts.getD i 0).toNat < C) :
    ∃ out : Tensor ℝ,
      cross_entropy ⟨shp ++ [C], rows.flatten⟩ ⟨shp, ts⟩ ⟨shp, ms⟩ sc = .ok out ∧
      out.shape = shp ∧
      ∀ i, i < rows.length → ms.getD i false = false → out.data.getD i 0 = 0 := by
  refine ⟨_, cross_entropy_ok shp C rows ts ms sc hC hrows hts hms hin, rfl, ?_⟩
  intro i hi hmi
  have hzl : (rows.zip (List.zipWith (fun m t => if m then t else 0) ms ts)).length =
      rows.length := by
    simp only [List.length_zip, List.length_zipWith]
    omega
  have hml : i < ((rows.zip (List.zipWith (fun m t => if m then t else 0) ms ts)).map
      (fun rt => ceVal sc rt.1 rt.2)).length := by
    simp only [List.length_map]
    omega
  rw [getD_zipWith (fun m c => if m then c else 0) ms _ i false 0 0 (by omega) hml, hmi]
  simp

/-- Witness for C1: two positions with `C = 2`; the masked-out position
carries the out-of-range target `5`, yet no error is raised and the
output there is `0`. -/
theorem cross_entropy_masked_zero_safe_witness :
    ∃ out : Tensor ℝ,
      cross_entropy ⟨[1, 1, 2, 2], [0, 0, 1, 2]⟩ ⟨[1, 1, 2], [5, 0]⟩
        ⟨[1, 1, 2], [false, true]⟩ none = .ok out ∧
      out.shape = [1, 1, 2] ∧
      ∀ i, i < 2 → [false, true].getD i false = false → out.data.getD i 0 = 0 := by
  have h := cross_entropy_masked_zero_safe [1, 1, 2] 2 [[0, 0], [1, 2]] [5, 0]
    [false, true] none (by norm_num) (by simp) rfl rfl (by decide)
  exact h

/-- C2: at every masked-in position the returned cross-entropy equals
the log-partition (log of the sum of exponentials of the row's logits
along the class dimension) minus the logit at the target class. -/
theorem cross_entropy_log_partition_formula (shp : List Nat) (C : Nat)
    (rows : List (List ℝ)) (ts : List ℤ) (ms : List Bool)
    (hC : 0 < C) (hrows : ∀ r ∈ rows, r.length = C)
    (hts : ts.length = rows.length) (hms : ms.length = rows.length)
    (hin : ∀ i, i < rows.length → ms.getD i false = true →
      0 ≤ ts.getD i 0 ∧ (ts.getD i 0).toNat < C)
    (i : Nat) (hi : i < rows.length) (hmi : ms.getD i false = true) :
    ∃ out : Tensor ℝ,
      cross_entropy ⟨shp ++ [C], rows.flatten⟩ ⟨shp, ts⟩ ⟨shp, ms⟩ none = .ok out ∧
      out.data.getD i 0 =
        logsumexp (rows.getD i []) - (rows.getD i []).getD (ts.getD i 0).toNat 0 := by
  obtain ⟨out, h1, h2⟩ :=
    cross_entropy_value_at shp C rows ts ms none hC hrows hts hms hin i hi hmi
  refine ⟨out, h1, ?_⟩
  rw [h2]
  simp [ceVal, softClipApply]

/-- Witness for C2: `C = 3`, uniform logits `[0, 0, 0]`, target class 1
and mask `True` give cross-entropy `ln 3`. -/
theorem cross_entropy_log_partition_formula_witness :
    ∃ out : Tensor ℝ,
      cross_entropy ⟨[1, 1, 1, 3], [0, 0, 0]⟩ ⟨[1, 1, 1], [1]⟩ ⟨[1, 1, 1], [true]⟩ none =
        .ok out ∧ out.data.getD 0 0 = Real.log 3 := by
  obtain ⟨out, h1, h2⟩ := cross_entropy_log_partition_formula [1, 1, 1] 3 [[0, 0, 0]]
    [1] [true] (by norm_num) (by simp) rfl rfl (by decide) 0 (by norm_num) rfl
  refine ⟨out, h1, ?_⟩
  rw [h2]
  simp [logsumexp, Real.exp_zero]
  norm_num

/-- C7: a shape mismatch (`logits.shape[:-1] ≠ targets.shape` or
`mask.shape ≠ targets.shape`) makes `cross_entropy` fail with the
shape-mismatch error of the leading asserts, before any numeric
computation; mismatched inputs are never broadcast or truncated. -/
theorem cross_entropy_shape_mismatch_fails (logits : Tensor ℝ) (targets : Tensor ℤ)
    (mask : Tensor Bool) (sc : Option ℝ)
    (h : logits.shape.dropLast ≠ targets.shape ∨ mask.shape ≠ targets.shape) :
    cross_entropy logits targets mask sc = .error .shapeMismatch := by
  have hneg : ¬(logits.shape.dropLast = targets.shape ∧ mask.shape = targets.shape) := by
    rcases h with h | h
    · exact fun hc => h hc.1
    · exact fun hc => h hc.2
  rw [cross_entropy, if_neg hneg]

/-- Witness for C7: logits of shape `[2, 3]` against targets of shape
`[3]` fail with the shape-mismatch error. -/
theorem cross_entropy_shape_mismatch_fails_witness :
    cross_entropy ⟨[2, 3], [0, 0, 0, 0, 0, 0]⟩ ⟨[3], [0, 0, 0]⟩
      ⟨[3], [true, true, true]⟩ none = .error .shapeMismatch :=
  cross_entropy_shape_mismatch_fails _ _ _ _ (by left; decide)

/-! ### Soft-clip bound (C6) -/

lemma abs_tanh_le_one (x : ℝ) : |Real.tanh x| ≤ 1 := by
  rw [Real.tanh_eq_sinh_div_cosh, abs_div, abs_of_pos (Real.cosh_pos x),
    div_le_one (Real.cosh_pos x)]
  nlinarith [Real.cosh_sq x, sq_abs (Real.sinh x), abs_nonneg (Real.sinh x),
    Real.cosh_pos x, sq_nonneg (|Real.sinh x| - Real.cosh x)]

lemma abs_softClipFn_le {c : ℝ} (hc : 0 < c) (x : ℝ) : |softClipFn c x| ≤ c := by
  rw [softClipFn, abs_mul, abs_of_pos hc]
  have h := abs_tanh_le_one (x / c)
  nlinarith [abs_nonneg (Real.tanh (x / c))]

/-- C6: with `logits_soft_clip = c > 0`, every logit `x` is transformed
to `c * tanh (x / c)` — whose magnitude is at most `c` — before the
log-partition is computed, and the value at a masked-in position is
computed from the clipped row, so no unbounded logit reaches the
log-sum-exp. -/
theorem cross_entropy_soft_clip_bounds (shp : List Nat) (C : Nat)
    (rows : List (List ℝ)) (ts : List ℤ) (ms : List Bool) (c : ℝ) (hc : 0 < c)
    (hC : 0 < C) (hrows : ∀ r ∈ rows, r.length = C)
    (hts : ts.length = rows.length) (hms : ms.length = rows.length)
    (hin : ∀ i, i < rows.length → ms.getD i false = true →
      0 ≤ ts.getD i 0 ∧ (ts.getD i 0).toNat < C)
    (i : Nat) (hi : i < rows.length) (hmi : ms.getD i false = true) :
    (∀ x : ℝ, |softClipFn c x| ≤ c) ∧
    ∃ out : Tensor ℝ,
      cross_entropy ⟨shp ++ [C], rows.flatten⟩ ⟨shp, ts⟩ ⟨shp, ms⟩ (some c) = .ok out ∧
      out.data.getD i 0 =
        logsumexp ((rows.getD i []).map (softClipFn c)) -
          ((rows.getD i []).map (softClipFn c)).getD (ts.getD i 0).toNat 0 := by
  refine ⟨fun x => abs_softClipFn_le hc x, ?_⟩
  obtain ⟨out, h1, h2⟩ :=
    cross_entropy_value_at shp C rows ts ms (some c) hC hrows hts hms hin i hi hmi
  refine ⟨out, h1, ?_⟩
  rw [h2]
  simp [ceVal, softClipApply]

/-- Witness for C6: `logits_soft_clip = 30` with an input logit of
`10^6`; the transformed logits are bounded by 30 in magnitude and the
output is the (finite) clipped log-partition formula. -/
theorem cross_entropy_soft_clip_bounds_witness :
    (0 : ℝ) < 30 ∧
    ((∀ x : ℝ, |softClipFn 30 x| ≤ 30) ∧
    ∃ out : Tensor ℝ,
      cross_entropy ⟨[1, 1, 1, 2], [1000000, 0]⟩ ⟨[1, 1, 1], [0]⟩ ⟨[1, 1, 1], [true]⟩
        (some 30) = .ok out ∧
      out.data.getD 0 0 =
        logsumexp ([1000000, 0].map (softClipFn 30)) -
          ([1000000, 0].map (softClipFn 30)).getD 0 0) := by
  refine ⟨by norm_num, ?_⟩
  have h := cross_entropy_soft_clip_bounds [1, 1, 1] 2 [[1000000, 0]] [0] [true] 30
    (by norm_num) (by norm_num) (by simp) rfl rfl (by decide) 0 (by norm_num) rfl
  exact h

/-! ### Sampling: structural lemmas -/

lemma sortDesc_length (l : List ℚ) : (sortDesc l).length = l.length := by
  simp [sortDesc, List.length_insertionSort]

lemma probsSortRow_length (l : List ℚ) : (probsSortRow l).length = l.length := by
  simp [probsSortRow, sortDesc_length]

lemma probsIdxRow_length (l : List ℚ) : (probsIdxRow l).length = l.length := by
  simp [probsIdxRow, sortDesc_length]

lemma sortDesc_sorted (l : List ℚ) : List.Sorted descRel (sortDesc l) :=
  List.sorted_insertionSort descRel l.enum

lemma sortDesc_perm (l : List ℚ) : (sortDesc l).Perm l.enum :=
  List.perm_insertionSort descRel l.enum

lemma probsSortRow_sorted (l : List ℚ) : (probsSortRow l).Sorted (· ≥ ·) := by
  rw [probsSortRow, List.Sorted, List.pairwise_map]
  exact (sortDesc_sorted l).imp (fun h => h)

lemma probsSortRow_perm (l : List ℚ) : (probsSortRow l).Perm l := by
  have h := (sortDesc_perm l).map Prod.snd
  rwa [List.enum_map_snd] at h

lemma probsSortRow_nonneg {l : List ℚ} (hnn : ∀ x ∈ l, 0 ≤ x) :
    ∀ x ∈ probsSortRow l, 0 ≤ x := fun x hx =>
  hnn x ((probsSortRow_perm l).mem_iff.1 hx)

lemma probsSortRow_le_head (l : List ℚ) (x : ℚ) (hx : x ∈ l) :
    x ≤ (probsSortRow l).getD 0 0 := by
  have hx' : x ∈ probsSortRow l := (probsSortRow_perm l).mem_iff.2 hx
  have hsorted := probsSortRow_sorted l
  cases hh : probsSortRow l with
  | nil =>
    rw [hh] at hx'
    simp at hx'
  | cons v rest =>
    rw [hh] at hx' hsorted
    rw [List.getD_cons_zero]
    rcases List.mem_cons.1 hx' with h | h
    · exact le_of_eq h
    · exact (List.pairwise_cons.1 hsorted).1 x h

lemma cumsumFrom_length (acc : ℚ) (l : List ℚ) : (cumsumFrom acc l).length = l.length := by
  induction l generalizing acc with
  | nil => rfl
  | cons x xs ih => simp [cumsumFrom, ih]

lemma cumsum_length (l : List ℚ) : (cumsum l).length = l.length := cumsumFrom_length 0 l

lemma topPMaskRow_length (l : List ℚ) (p : ℚ) : (topPMaskRow l p).length = l.length := by
  rw [topPMaskRow, List.length_zipWith, cumsum_length, probsSortRow_length]
  simp

lemma topPRow_length (l : List ℚ) (p : ℚ) : (topPRow l p).length = l.length := by
  rw [topPRow]
  simp [topPMaskRow_length]

lemma cumsumFrom_getD : ∀ (l : List ℚ) (acc : ℚ) (j : Nat), j < l.length →
    (cumsumFrom acc l).getD j 0 = acc + (l.take (j + 1)).sum := by
  intro l
  induction l with
  | nil =>
    intro acc j hj
    simp at hj
  | cons x xs ih =>
    intro acc j hj
    cases j with
    | zero => simp [cumsumFrom]
    | succ n =>
      rw [cumsumFrom, List.getD_cons_succ, ih (acc + x) n (by simpa using hj),
        List.take_succ_cons, List.sum_cons]
      ring

/-- The masking rule of `sample_top_p` acts on sorted position `j` via
the exclusive cumulative probability `(take j).sum`: the entry is zeroed
exactly when that sum strictly exceeds `p`. -/
lemma topPMaskRow_getD (l : List ℚ) (p : ℚ) (j : Nat) (hj : j < l.length) :
    (topPMaskRow l p).getD j 0 =
      if p < ((probsSortRow l).take j).sum then 0 else (probsSortRow l).getD j 0 := by
  have hv : j < (probsSortRow l).length := by
    rw [probsSortRow_length]
    exact hj
  have hc : j < (cumsum (probsSortRow l)).length := by
    rw [cumsum_length, probsSortRow_length]
    exact hj
  have hsub : (cumsum (probsSortRow l)).getD j 0 - (probsSortRow l).getD j 0 =
      ((probsSortRow l).take j).sum := by
    rw [cumsum, cumsumFrom_getD _ 0 j hv, zero_add, List.sum_take_succ _ j hv,
      List.getD_eq_getElem _ _ hv]
    ring
  rw [topPMaskRow]
  simp only [getD_zipWith (fun s c => if p < c - s then 0 else s) (probsSortRow l)
    (cumsum (probsSortRow l)) j 0 0 0 hv hc]
  rw [hsub]

lemma list_sum_nonpos : ∀ l : List ℚ, (∀ x ∈ l, x ≤ 0) → l.sum ≤ 0 := by
  intro l
  induction l with
  | nil => intro _; simp
  | cons x xs ih =>
    intro h
    rw [List.sum_cons]
    have h1 := h x (by simp)
    have h2 := ih (fun y hy => h y (by simp [hy]))
    linarith

lemma exists_pos_of_sum_one {l : List ℚ} (hsum : l.sum = 1) : ∃ x ∈ l, 0 < x := by
  by_contra h
  push_neg at h
  have := list_sum_nonpos l h
  rw [hsum] at this
  linarith

lemma take_sum_le_sum {l : List ℚ} (hnn : ∀ x ∈ l, 0 ≤ x) (j : Nat) :
    (l.take j).sum ≤ l.sum := by
  conv_rhs => rw [← List.take_append_drop j l]
  rw [List.sum_append]
  have h : 0 ≤ (l.drop j).sum :=
    List.sum_nonneg (fun x hx => hnn x (List.mem_of_mem_drop hx))
  linarith

lemma take_sum_nonneg {l : List ℚ} (hnn : ∀ x ∈ l, 0 ≤ x) (j : Nat) :
    0 ≤ (l.take j).sum :=
  List.sum_nonneg (fun x hx => hnn x (List.mem_of_mem_take hx))

lemma getD_zero_of_all_zero {l : List ℚ} (h : ∀ x ∈ l, x = 0) (j : Nat) :
    l.getD j 0 = 0 := by
  by_cases hj : j < l.length
  · rw [List.getD_eq_getElem _ _ hj]
    exact h _ (List.getElem_mem hj)
  · rw [List.getD_eq_default _ _ (by omega)]

/-! ### Sampling: evaluation on well-formed row tensors -/

lemma multinomial_eval (shp : List Nat) (C : Nat) (rows : List (List ℚ))
    (draw : Nat → Nat) (hC : 0 < C) (hrows : ∀ r ∈ rows, r.length = C) :
    multinomial ⟨shp ++ [C], rows.flatten⟩ draw =
      if (∀ r ∈ rows, ∀ x ∈ r, 0 ≤ x) ∧
          (∀ i < rows.length, 0 < (rows.getD i []).getD (draw i) 0) then
        some ⟨shp ++ [1], (List.range rows.length).map draw⟩
      else none := by
  simp only [multinomial]
  rw [List.getLastD_concat, List.dropLast_concat, chunkBy_flatten_uniform hC rows hrows]
  by_cases h : (∀ r ∈ rows, ∀ x ∈ r, 0 ≤ x) ∧
      (∀ i < rows.length, 0 < (rows.getD i []).getD (draw i) 0)
  · rw [if_pos ⟨hC, h.1, h.2⟩, if_pos h]
  · rw [if_neg (fun hc => h ⟨hc.2.1, hc.2.2⟩), if_neg h]

lemma sample_top_p_eval (shp : List Nat) (C : Nat) (rows : List (List ℚ)) (p : ℚ)
    (draw : Nat → Nat) (hC : 0 < C) (hrows : ∀ r ∈ rows, r.length = C) :
    sample_top_p ⟨shp ++ [C], rows.flatten⟩ p draw =
      match multinomial ⟨shp ++ [C], (rows.map (fun r => topPRow r p)).flatten⟩ draw with
      | none => none
      | some nt =>
        some ⟨nt.shape, (List.range rows.length).map
          (fun i => (probsIdxRow (rows.getD i [])).getD (nt.data.getD i 0) 0)⟩ := by
  simp only [sample_top_p]
  rw [List.getLastD_concat, chunkBy_flatten_uniform hC rows hrows]

lemma sample_top_k_eval (shp : List Nat) (C : Nat) (rows : List (List ℚ)) (k : ℤ)
    (draw : Nat → Nat) (hC : 0 < C) (hrows : ∀ r ∈ rows, r.length = C)
    (hk0 : 0 ≤ k) (hkC : k ≤ (C : ℤ)) :
    sample_top_k ⟨shp ++ [C], rows.flatten⟩ k draw =
      match multinomial ⟨shp ++ [k.toNat],
          ((rows.map (fun r => (sortDesc r).take k.toNat)).map
            (fun t => t.map Prod.snd)).flatten⟩ draw with
      | none => none
      | some nt =>
        some ⟨nt.shape, (List.range rows.length).map
          (fun i => (((rows.map (fun r => (sortDesc r).take k.toNat)).getD i []).map
            Prod.fst).getD (nt.data.getD i 0) 0)⟩ := by
  simp only [sample_top_k]
  rw [List.getLastD_concat, List.dropLast_concat, chunkBy_flatten_uniform hC rows hrows,
    if_pos ⟨hk0, hkC⟩]

lemma sample_top_p_eval_some (shp : List Nat) (C : Nat) (rows : List (List ℚ)) (p : ℚ)
    (draw : Nat → Nat) (hC : 0 < C) (hrows : ∀ r ∈ rows, r.length = C) (nt : Tensor Nat)
    (hnt : multinomial ⟨shp ++ [C], (rows.map (fun r => topPRow r p)).flatten⟩ draw =
      some nt) :
    sample_top_p ⟨shp ++ [C], rows.flatten⟩ p draw =
      some ⟨nt.shape, (List.range rows.length).map
        (fun i => (probsIdxRow (rows.getD i [])).getD (nt.data.getD i 0) 0)⟩ := by
  rw [sample_top_p_eval shp C rows p draw hC hrows, hnt]

lemma sample_top_p_eval_none (shp : List Nat) (C : Nat) (rows : List (List ℚ)) (p : ℚ)
    (draw : Nat → Nat) (hC : 0 < C) (hrows : ∀ r ∈ rows, r.length = C)
    (hnt : multinomial ⟨shp ++ [C], (rows.map (fun r => topPRow r p)).flatten⟩ draw =
      none) :
    sample_top_p ⟨shp ++ [C], rows.flatten⟩ p draw = none := by
  rw [sample_top_p_eval shp C rows p draw hC hrows, hnt]

lemma sample_top_k_eval_some (shp : List Nat) (C : Nat) (rows : List (List ℚ)) (k : ℤ)
    (draw : Nat → Nat) (hC : 0 < C) (hrows : ∀ r ∈ rows, r.length = C)
    (hk0 : 0 ≤ k) (hkC : k ≤ (C : ℤ)) (nt : Tensor Nat)
    (hnt : multinomial ⟨shp ++ [k.toNat],
        ((rows.map (fun r => (sortDesc r).take k.toNat)).map
          (fun t => t.map Prod.snd)).flatten⟩ draw = some nt) :
    sample_top_k ⟨shp ++ [C], rows.flatten⟩ k draw =
      some ⟨nt.shape, (List.range rows.length).map
        (fun i => (((rows.map (fun r => (sortDesc r).take k.toNat)).getD i []).map
          Prod.fst).getD (nt.data.getD i 0) 0)⟩ := by
  rw [sample_top_k_eval shp C rows k draw hC hrows hk0 hkC, hnt]

lemma sample_top_k_eval_none (shp : List Nat) (C : Nat) (rows : List (List ℚ)) (k : ℤ)
    (draw : Nat → Nat) (hC : 0 < C) (hrows : ∀ r ∈ rows, r.length = C)
    (hk0 : 0 ≤ k) (hkC : k ≤ (C : ℤ))
    (hnt : multinomial ⟨shp ++ [k.toNat],
        ((rows.map (fun r => (sortDesc r).take k.toNat)).map
          (fun t => t.map Prod.snd)).flatten⟩ draw = none) :
    sample_top_k ⟨shp ++ [C], rows.flatten⟩ k draw = none := by
  rw [sample_top_k_eval shp C rows k draw hC hrows hk0 hkC, hnt]

lemma getD_mem {l : List α} {i : Nat} (h : i < l.length) (d : α) : l.getD i d ∈ l := by
  rw [List.getD_eq_getElem _ _ h]
  exact List.getElem_mem h

/-! ### Claim theorems: sampling -/

/-- C3: `sample_top_p` sorts each row's probabilities descending (the
sorted pairs are a permutation of the indexed row); a sorted position is
zeroed out exactly when the exclusive cumulative probability strictly
before it exceeds `p`; for `p ≥ 0` the top-1 class is never dropped (its
exclusive cumulative sum is `0`) and keeps the strictly positive maximal
probability, so a nonzero entry always remains to renormalise and sample
from; and the sampled local index is mapped back through the
descending-sort permutation to an original class index. -/
theorem sample_top_p_spec (l : List ℚ) (p : ℚ) (hp : 0 ≤ p)
    (hnn : ∀ x ∈ l, 0 ≤ x) (hsum : l.sum = 1) :
    ((probsSortRow l).Sorted (· ≥ ·) ∧ (sortDesc l).Perm l.enum) ∧
    (∀ j, j < l.length →
      (topPMaskRow l p).getD j 0 =
        if p < ((probsSortRow l).take j).sum then 0 else (probsSortRow l).getD j 0) ∧
    ((topPMaskRow l p).getD 0 0 = (probsSortRow l).getD 0 0 ∧
      0 < (topPMaskRow l p).getD 0 0) ∧
    (∀ (shp : List Nat) (C : Nat) (rows : List (List ℚ)) (draw : Nat → Nat)
      (out : Tensor Nat), 0 < C → (∀ r ∈ rows, r.length = C) →
      sample_top_p ⟨shp ++ [C], rows.flatten⟩ p draw = some out →
      ∀ i, i < rows.length →
        out.data.getD i 0 = (probsIdxRow (rows.getD i [])).getD (draw i) 0) := by
  refine ⟨⟨probsSortRow_sorted l, sortDesc_perm l⟩,
    fun j hj => topPMaskRow_getD l p j hj, ?_, ?_⟩
  · have hne : l ≠ [] := by
      intro h
      rw [h] at hsum
      simp at hsum
    have h0 : 0 < l.length := List.length_pos.2 hne
    have hmask0 := topPMaskRow_getD l p 0 h0
    rw [List.take_zero, List.sum_nil, if_neg (not_lt.2 hp)] at hmask0
    refine ⟨hmask0, ?_⟩
    rw [hmask0]
    obtain ⟨x, hxmem, hxpos⟩ := exists_pos_of_sum_one hsum
    exact lt_of_lt_of_le hxpos (probsSortRow_le_head l x hxmem)
  · intro shp C rows draw out hC hrows hout i hi
    have hrows' : ∀ r ∈ rows.map (fun r => topPRow r p), r.length = C := by
      intro r hr
      obtain ⟨r₀, hr₀, rfl⟩ := List.mem_map.1 hr
      rw [topPRow_length]
      exact hrows r₀ hr₀
    cases hmn : multinomial ⟨shp ++ [C], (rows.map (fun r => topPRow r p)).flatten⟩ draw with
    | none =>
      rw [sample_top_p_eval_none shp C rows p draw hC hrows hmn] at hout
      exact absurd hout (by simp)
    | some nt =>
      rw [sample_top_p_eval_some shp C rows p draw hC hrows nt hmn] at hout
      obtain rfl := (Option.some_inj.1 hout).symm
      rw [multinomial_eval shp C (rows.map (fun r => topPRow r p)) draw hC hrows'] at hmn
      by_cases hcond : (∀ r ∈ rows.map (fun r => topPRow r p), ∀ x ∈ r, 0 ≤ x) ∧
          (∀ i < (rows.map (fun r => topPRow r p)).length,
            0 < ((rows.map (fun r => topPRow r p)).getD i []).getD (draw i) 0)
      · rw [if_pos hcond] at hmn
        obtain rfl := Option.some_inj.1 hmn
        rw [getD_range_map _ rows.length i 0 hi,
          getD_range_map draw _ i 0 (by simpa using hi)]
      · rw [if_neg hcond] at hmn
        exact absurd hmn (by simp)

/-- The set of classes that survive the top-p mask (retain a nonzero
probability after the zeroing step), identified by original class
index through the descending-sort permutation. -/
def survivesTopP (l : List ℚ) (p : ℚ) (c : Nat) : Prop :=
  ∃ j, j < l.length ∧ (probsIdxRow l).getD j 0 = c ∧ (topPMaskRow l p).getD j 0 ≠ 0

/-- C5: for thresholds `p₁ < p₂`, every class surviving the top-p mask
under `p₁` also survives under `p₂`: the surviving class set is nested. -/
theorem sample_top_p_nested_support (l : List ℚ) (p₁ p₂ : ℚ) (c : Nat)
    (hp : p₁ < p₂) (h : survivesTopP l p₁ c) : survivesTopP l p₂ c := by
  obtain ⟨j, hj, hidx, hnz⟩ := h
  refine ⟨j, hj, hidx, ?_⟩
  rw [topPMaskRow_getD l p₁ j hj] at hnz
  rw [topPMaskRow_getD l p₂ j hj]
  by_cases hcase : p₁ < ((probsSortRow l).take j).sum
  · rw [if_pos hcase] at hnz
    exact absurd rfl hnz
  · push_neg at hcase
    rw [if_neg (by push_neg; linarith)]
    rwa [if_neg (not_lt.2 hcase)] at hnz

/-- C4: whenever `sample_top_k` returns, with `k ≥ 1`, the output has
the input shape with the last dimension replaced by `1`, and every
returned class index belongs to the `k` highest-probability classes of
its row (the `k` first positions of the descending sort); the `k`
selected probabilities are passed to the multinomial as unnormalised
weights, with no renormalisation step. -/
theorem sample_top_k_support (shp : List Nat) (C : Nat) (rows : List (List ℚ))
    (k : ℤ) (draw : Nat → Nat) (out : Tensor Nat) (hC : 0 < C)
    (hrows : ∀ r ∈ rows, r.length = C) (hk : 1 ≤ k)
    (hout : sample_top_k ⟨shp ++ [C], rows.flatten⟩ k draw = some out) :
    out.shape = shp ++ [1] ∧
    ∀ i, i < rows.length →
      out.data.getD i 0 ∈ (probsIdxRow (rows.getD i [])).take k.toNat := by
  by_cases hkC : k ≤ (C : ℤ)
  · have hk0 : 0 ≤ k := by omega
    have hki : k.toNat ≤ C := by omega
    have hkpos : 0 < k.toNat := by omega
    have hwlen : ∀ w ∈ (rows.map (fun r => (sortDesc r).take k.toNat)).map
        (fun t => t.map Prod.snd), w.length = k.toNat := by
      intro w hw
      obtain ⟨t, ht, rfl⟩ := List.mem_map.1 hw
      obtain ⟨r, hr, rfl⟩ := List.mem_map.1 ht
      rw [List.length_map, List.length_take, sortDesc_length, hrows r hr]
      omega
    cases hmn : multinomial ⟨shp ++ [k.toNat],
        ((rows.map (fun r => (sortDesc r).take k.toNat)).map
          (fun t => t.map Prod.snd)).flatten⟩ draw with
    | none =>
      rw [sample_top_k_eval_none shp C rows k draw hC hrows hk0 hkC hmn] at hout
      exact absurd hout (by simp)
    | some nt =>
      rw [sample_top_k_eval_some shp C rows k draw hC hrows hk0 hkC nt hmn] at hout
      obtain rfl := (Option.some_inj.1 hout).symm
      rw [multinomial_eval shp k.toNat
        ((rows.map (fun r => (sortDesc r).take k.toNat)).map (fun t => t.map Prod.snd))
        draw hkpos hwlen] at hmn
      by_cases hcond : (∀ r ∈ (rows.map (fun r => (sortDesc r).take k.toNat)).map
            (fun t => t.map Prod.snd), ∀ x ∈ r, 0 ≤ x) ∧
          (∀ i < ((rows.map (fun r => (sortDesc r).take k.toNat)).map
            (fun t => t.map Prod.snd)).length,
            0 < (((rows.map (fun r => (sortDesc r).take k.toNat)).map
              (fun t => t.map Prod.snd)).getD i []).getD (draw i) 0)
      · rw [if_pos hcond] at hmn
        obtain rfl := Option.some_inj.1 hmn
        refine ⟨rfl, ?_⟩
        intro i hi
        have hitks : i < (rows.map (fun r => (sortDesc r).take k.toNat)).length := by
          simpa using hi
        have hdraw : draw i < k.toNat := by
          have h2 := hcond.2 i (by simpa using hi)
          rw [getD_map (fun t => t.map Prod.snd)
            (rows.map (fun r => (sortDesc r).take k.toNat)) i [] [] hitks] at h2
          by_contra hge
          push_neg at hge
          rw [List.getD_eq_default] at h2
          · exact lt_irrefl 0 h2
          · rw [List.length_map, getD_map (fun r => (sortDesc r).take k.toNat) rows i [] [] hi,
              List.length_take, sortDesc_length, hrows _ (getD_mem hi [])]
            omega
        rw [getD_range_map _ rows.length i 0 hi,
          getD_range_map draw _ i 0 (by simpa using hi),
          getD_map (fun r => (sortDesc r).take k.toNat) rows i [] [] hi,
          List.map_take]
        have hlentake : draw i < ((probsIdxRow (rows.getD i [])).take k.toNat).length := by
          rw [List.length_take, probsIdxRow_length, hrows _ (getD_mem hi [])]
          omega
        exact getD_mem hlentake 0
      · rw [if_neg hcond] at hmn
        exact absurd hmn (by simp)
  · simp only [sample_top_k] at hout
    rw [List.getLastD_concat, if_neg (fun hc => hkC hc.2)] at hout
    exact absurd hout (by simp)

/-! ### Degenerate sampling parameters (C8) -/

lemma multinomial_last_zero (shp2 : List Nat) (data : List ℚ) (draw : Nat → Nat) :
    multinomial ⟨shp2 ++ [0], data⟩ draw = none := by
  simp only [multinomial]
  rw [if_neg]
  intro hc
  rw [List.getLastD_concat] at hc
  exact absurd hc.1 (lt_irrefl 0)

lemma topPMaskRow_all_zero {r : List ℚ} {p : ℚ} (hnn : ∀ x ∈ r, 0 ≤ x) (hp : p < 0) :
    ∀ y ∈ topPMaskRow r p, y = 0 := by
  intro y hy
  obtain ⟨j, hj, hget⟩ := List.mem_iff_getElem.1 hy
  have hjr : j < r.length := by
    rw [topPMaskRow_length] at hj
    exact hj
  rw [← hget, ← List.getD_eq_getElem _ 0 hj, topPMaskRow_getD r p j hjr,
    if_pos (lt_of_lt_of_le hp (take_sum_nonneg (probsSortRow_nonneg hnn) j))]

/-- C8 (amended): neither sampler validates its parameter explicitly.
Degenerate `k` makes `sample_top_k` fail in the underlying operations:
`k < 0` or `k >` cardinality fails the top-k selection, and `k = 0`
leaves zero categories so the multinomial draw fails.  A negative `p`
zeroes every class, so the multinomial draw rejects the resulting
invalid all-zero distribution.  But `p ≥ 1` is silently accepted: no
class is masked and `sample_top_p` samples from the full distribution
instead of failing. -/
theorem sampling_degenerate_params :
    (∀ (probs : Tensor ℚ) (k : ℤ) (draw : Nat → Nat),
      (k < 0 ∨ (probs.shape.getLastD 0 : ℤ) < k) → sample_top_k probs k draw = none) ∧
    (∀ (probs : Tensor ℚ) (draw : Nat → Nat), sample_top_k probs 0 draw = none) ∧
    (∀ (shp : List Nat) (C : Nat) (rows : List (List ℚ)) (p : ℚ) (draw : Nat → Nat),
      0 < C → rows ≠ [] → (∀ r ∈ rows, r.length = C) →
      (∀ r ∈ rows, ∀ x ∈ r, 0 ≤ x) → p < 0 →
      sample_top_p ⟨shp ++ [C], rows.flatten⟩ p draw = none) ∧
    (∀ (l : List ℚ) (p : ℚ), (∀ x ∈ l, 0 ≤ x) → l.sum = 1 → 1 ≤ p →
      topPMaskRow l p = probsSortRow l) := by
  refine ⟨?_, ?_, ?_, ?_⟩
  · intro probs k draw h
    simp only [sample_top_k]
    have hneg : ¬(0 ≤ k ∧ k ≤ ((probs.shape.getLastD 0 : Nat) : ℤ)) := by
      intro hc
      rcases h with h | h <;> omega
    rw [if_neg hneg]
  · intro probs draw
    simp only [sample_top_k]
    rw [if_pos ⟨le_refl 0, by exact_mod_cast Nat.zero_le _⟩]
    simp only [Int.toNat_zero]
    rw [multinomial_last_zero]
  · intro shp C rows p draw hC hne hrows hnn hp
    have hrows' : ∀ r ∈ rows.map (fun r => topPRow r p), r.length = C := by
      intro r hr
      obtain ⟨r₀, hr₀, rfl⟩ := List.mem_map.1 hr
      rw [topPRow_length]
      exact hrows r₀ hr₀
    apply sample_top_p_eval_none shp C rows p draw hC hrows
    rw [multinomial_eval shp C (rows.map (fun r => topPRow r p)) draw hC hrows']
    rw [if_neg]
    intro hcond
    have hlen0 : 0 < rows.length := List.length_pos.2 hne
    have hlen : 0 < (rows.map (fun r => topPRow r p)).length := by simpa using hlen0
    have h0 := hcond.2 0 hlen
    rw [getD_map (fun r => topPRow r p) rows 0 [] [] hlen0] at h0
    have hzero : ∀ x ∈ topPRow (rows.getD 0 []) p, x = 0 := by
      intro x hx
      simp only [topPRow] at hx
      obtain ⟨y, hy, rfl⟩ := List.mem_map.1 hx
      rw [topPMaskRow_all_zero (hnn _ (getD_mem hlen0 [])) hp y hy, zero_div]
    rw [getD_zero_of_all_zero hzero (draw 0)] at h0
    exact lt_irrefl 0 h0
  · intro l p hnn hsum hp1
    apply List.ext_getElem
    · rw [topPMaskRow_length, probsSortRow_length]
    · intro j h1 h2
      have hjl : j < l.length := by
        rw [topPMaskRow_length] at h1
        exact h1
      have hle : ((probsSortRow l).take j).sum ≤ p := by
        calc ((probsSortRow l).take j).sum ≤ (probsSortRow l).sum :=
              take_sum_le_sum (probsSortRow_nonneg hnn) j
          _ = l.sum := (probsSortRow_perm l).sum_eq
          _ = 1 := hsum
          _ ≤ p := hp1
      rw [← List.getD_eq_getElem (topPMaskRow l p) 0 h1,
        ← List.getD_eq_getElem (probsSortRow l) 0 h2, topPMaskRow_getD l p j hjl,
        if_neg (not_lt.2 hle)]

/-! ### Hash trick (C9) and state copying (C10) -/

/-- C9: for any hash function and positive vocabulary size, `hash_trick`
returns an index in `[0, vocab_size)`, and it is deterministic: the same
word and vocabulary size always give the same index. -/
theorem hash_trick_in_range (h : String → Nat) (w : String) (v : Nat) (hv : 0 < v) :
    hash_trick h w v < v ∧ hash_trick h w v = hash_trick h w v :=
  ⟨Nat.mod_lt _ hv, rfl⟩

/-- Witness for C9 at a concrete hash function, word and vocabulary size. -/
theorem hash_trick_in_range_witness :
    hash_trick (fun _ => 123456) "hello" 10 < 10 ∧
    hash_trick (fun _ => 123456) "hello" 10 = hash_trick (fun _ => 123456) "hello" 10 :=
  hash_trick_in_range (fun _ => 123456) "hello" 10 (by norm_num)

lemma copyEntries_eq_map : ∀ es : List (String × PyVal),
    copyEntries es = es.map (fun kv => (kv.1, copy_state kv.2)) := by
  intro es
  induction es with
  | nil => rw [copyEntries, List.map_nil]
  | cons kv rest ih => rw [copyEntries, ih, List.map_cons]

lemma copyItems_eq_map : ∀ xs : List PyVal,
    copyItems xs = xs.map copy_state := by
  intro xs
  induction xs with
  | nil => rw [copyItems, List.map_nil]
  | cons x rest ih => rw [copyItems, ih, List.map_cons]

/-- C10: `copy_state` returns `None` for any value that is not a tensor,
a dict or a list — int, float, string and `None` values (for example
nested inside a state dict) are silently replaced rather than copied or
rejected — while tensors are copied value-preservingly and dicts and
lists are copied recursively with their structure (keys, order, length)
preserved. -/
theorem copy_state_spec :
    (∀ n : ℤ, copy_state (.int n) = .none) ∧
    (∀ q : ℚ, copy_state (.float q) = .none) ∧
    (∀ s : String, copy_state (.str s) = .none) ∧
    copy_state .none = .none ∧
    (∀ t : Tensor ℚ, copy_state (.tensor t) = .tensor t) ∧
    (∀ es : List (String × PyVal),
      copy_state (.dict es) = .dict (es.map (fun kv => (kv.1, copy_state kv.2)))) ∧
    (∀ xs : List PyVal, copy_state (.list xs) = .list (xs.map copy_state)) := by
  refine ⟨fun n => by rw [copy_state] <;> simp, fun q => by rw [copy_state] <;> simp,
    fun s => by rw [copy_state] <;> simp, by rw [copy_state] <;> simp,
    fun t => by rw [copy_state], fun es => by rw [copy_state, copyEntries_eq_map],
    fun xs => by rw [copy_state, copyItems_eq_map]⟩

/-! ### Concrete witnesses for the sampling claims -/

/-- Witness for C3 on the probability row `[1/4, 3/4]` with `p = 1/2`:
the hypotheses hold, the top-1 entry survives the mask and is positive,
and it concretely evaluates to the maximal probability `3/4`. -/
theorem sample_top_p_spec_witness :
    (0 : ℚ) ≤ 1 / 2 ∧ (∀ x ∈ [(1 : ℚ) / 4, 3 / 4], 0 ≤ x) ∧
    ([(1 : ℚ) / 4, 3 / 4].sum = 1) ∧
    (topPMaskRow [(1 : ℚ) / 4, 3 / 4] (1 / 2)).getD 0 0 =
      (probsSortRow [(1 : ℚ) / 4, 3 / 4]).getD 0 0 ∧
    0 < (topPMaskRow [(1 : ℚ) / 4, 3 / 4] (1 / 2)).getD 0 0 ∧
    (probsSortRow [(1 : ℚ) / 4, 3 / 4]).getD 0 0 = 3 / 4 := by
  have h := sample_top_p_spec [(1 : ℚ) / 4, 3 / 4] (1 / 2) (by norm_num) (by norm_num)
    (by norm_num)
  refine ⟨by norm_num, by norm_num, by norm_num, h.2.2.1.1, h.2.2.1.2, ?_⟩
  rw [probsSortRow]
  norm_num [sortDesc, List.insertionSort, List.orderedInsert, descRel, List.enum,
    List.enumFrom]

/-- Witness for C4: `sample_top_k` on the row `[1/4, 3/4]` with `k = 1`
and a draw of the single surviving candidate returns class `1`, the
highest-probability class, with output shape `[1, 1]`. -/
theorem sample_top_k_support_witness :
    (1 : ℤ) ≤ 1 ∧
    sample_top_k ⟨[1, 2], [1 / 4, 3 / 4]⟩ 1 (fun _ => 0) = some ⟨[1, 1], [1]⟩ ∧
    (⟨[1, 1], [1]⟩ : Tensor Nat).shape = [1] ++ [1] ∧
    ∀ i, i < 1 → (⟨[1, 1], [1]⟩ : Tensor Nat).data.getD i 0 ∈
      (probsIdxRow ([[(1 : ℚ) / 4, 3 / 4]].getD i [])).take (1 : ℤ).toNat := by
  have hsort : sortDesc [(1 : ℚ) / 4, 3 / 4] = [(1, 3 / 4), (0, 1 / 4)] := by
    norm_num [sortDesc, List.insertionSort, List.orderedInsert, descRel, List.enum,
      List.enumFrom]
  have hdata : ([[(1 : ℚ) / 4, 3 / 4]].map (fun r => (sortDesc r).take (1 : ℤ).toNat)).map
      (fun t => t.map Prod.snd) = [[(3 : ℚ) / 4]] := by
    rw [List.map_cons, List.map_nil, List.map_cons, List.map_nil, hsort]
    norm_num
  have hcond : (∀ r ∈ [[(3 : ℚ) / 4]], ∀ x ∈ r, 0 ≤ x) ∧
      (∀ i < [[(3 : ℚ) / 4]].length, 0 < ([[(3 : ℚ) / 4]].getD i []).getD 0 0) := by
    constructor
    · intro r hr x hx
      simp at hr
      subst hr
      fin_cases hx
      norm_num
    · intro i hi
      have h0 : i = 0 := by
        simp at hi
        omega
      subst h0
      norm_num
  have hmn : multinomial ⟨[1] ++ [(1 : ℤ).toNat],
      (([[(1 : ℚ) / 4, 3 / 4]].map (fun r => (sortDesc r).take (1 : ℤ).toNat)).map
        (fun t => t.map Prod.snd)).flatten⟩ (fun _ => 0) =
      some ⟨[1] ++ [1], (List.range 1).map (fun _ => 0)⟩ := by
    rw [hdata, Int.toNat_one,
      multinomial_eval [1] 1 [[(3 : ℚ) / 4]] (fun _ => 0) (by norm_num) (by norm_num),
      if_pos hcond]
    rfl
  have hsucc : sample_top_k ⟨[1] ++ [2], [[(1 : ℚ) / 4, 3 / 4]].flatten⟩ 1 (fun _ => 0) =
      some ⟨[1, 1], [1]⟩ := by
    rw [sample_top_k_eval_some [1] 2 [[(1 : ℚ) / 4, 3 / 4]] 1 (fun _ => 0) (by norm_num)
      (by norm_num) (by norm_num) (by norm_num) _ hmn, List.map_cons, List.map_nil,
      Int.toNat_one, hsort]
    rfl
  have h := sample_top_k_support [1] 2 [[(1 : ℚ) / 4, 3 / 4]] 1 (fun _ => 0)
    ⟨[1, 1], [1]⟩ (by norm_num) (by norm_num) (by norm_num) hsucc
  exact ⟨le_refl 1, hsucc, h.1, h.2⟩

/-- Witness for C5 on the row `[2, 1]`: class `0` survives the top-p
mask under `p₁ = 1` and hence (by nestedness) under `p₂ = 3`. -/
theorem sample_top_p_nested_support_witness :
    (1 : ℚ) < 3 ∧ survivesTopP [(2 : ℚ), 1] 1 0 ∧ survivesTopP [(2 : ℚ), 1] 3 0 := by
  have hsort : sortDesc [(2 : ℚ), 1] = [(0, 2), (1, 1)] := by
    norm_num [sortDesc, List.insertionSort, List.orderedInsert, descRel, List.enum,
      List.enumFrom]
  have hs1 : survivesTopP [(2 : ℚ), 1] 1 0 := by
    refine ⟨0, by norm_num, ?_, ?_⟩
    · rw [probsIdxRow, hsort]
      norm_num
    · rw [topPMaskRow_getD [(2 : ℚ), 1] 1 0 (by norm_num), probsSortRow, hsort]
      norm_num
  exact ⟨by norm_num, hs1,
    sample_top_p_nested_support [(2 : ℚ), 1] 1 3 0 (by norm_num) hs1⟩

/-- Counterexample for C8: with the degenerate threshold `p = 1` (the
claim requires validation failure for every `p ≥ 1`), `sample_top_p`
does not fail: it silently returns a sample from the full distribution. -/
theorem sample_top_p_degenerate_p_returns :
    sample_top_p ⟨[2], [1, 0]⟩ 1 (fun _ => 0) = some ⟨[1], [0]⟩ := by
  have hrow : topPRow [(1 : ℚ), 0] 1 = [1, 0] := by
    norm_num [topPRow, topPMaskRow, probsSortRow, sortDesc, cumsum, cumsumFrom, descRel,
      List.insertionSort, List.orderedInsert, List.enum, List.enumFrom]
  have hidx : probsIdxRow [(1 : ℚ), 0] = [0, 1] := by
    norm_num [probsIdxRow, sortDesc, descRel, List.insertionSort, List.orderedInsert,
      List.enum, List.enumFrom]
  have hmap : [[(1 : ℚ), 0]].map (fun r => topPRow r 1) = [[(1 : ℚ), 0]] := by
    rw [List.map_cons, List.map_nil, hrow]
  have hcond : (∀ r ∈ [[(1 : ℚ), 0]], ∀ x ∈ r, 0 ≤ x) ∧
      (∀ i < [[(1 : ℚ), 0]].length, 0 < ([[(1 : ℚ), 0]].getD i []).getD 0 0) := by
    constructor
    · intro r hr x hx
      simp at hr
      subst hr
      fin_cases hx <;> norm_num
    · intro i hi
      have h0 : i = 0 := by
        simp at hi
        omega
      subst h0
      norm_num
  have hmn : multinomial ⟨[] ++ [2], ([[(1 : ℚ), 0]].map (fun r => topPRow r 1)).flatten⟩
      (fun _ => 0) = some ⟨[] ++ [1], (List.range 1).map (fun _ => 0)⟩ := by
    rw [hmap, multinomial_eval [] 2 [[(1 : ℚ), 0]] (fun _ => 0) (by norm_num)
      (by norm_num), if_pos hcond]
    rfl
  rw [show (⟨[2], [1, 0]⟩ : Tensor ℚ) =
    (⟨[] ++ [2], [[(1 : ℚ), 0]].flatten⟩ : Tensor ℚ) from rfl]
  rw [sample_top_p_eval_some [] 2 [[(1 : ℚ), 0]] 1 (fun _ => 0) (by norm_num)
    (by norm_num) _ hmn]
  rfl

/-- Witness for the amended C8: concrete degenerate parameters.
`k = -1` and `k = 0` make `sample_top_k` fail, `p = -1` makes
`sample_top_p` fail, and `p = 1` leaves the masked row identical to the
sorted row (no class dropped). -/
theorem sampling_degenerate_params_witness :
    sample_top_k ⟨[2], [(1 : ℚ), 0]⟩ (-1) (fun _ => 0) = none ∧
    sample_top_k ⟨[2], [(1 : ℚ), 0]⟩ 0 (fun _ => 0) = none ∧
    sample_top_p ⟨[2], [(1 : ℚ), 0]⟩ (-1) (fun _ => 0) = none ∧
    topPMaskRow [(1 : ℚ), 0] 1 = probsSortRow [(1 : ℚ), 0] := by
  refine ⟨sampling_degenerate_params.1 _ _ _ (Or.inl (by norm_num)),
    sampling_degenerate_params.2.1 _ _, ?_,
    sampling_degenerate_params.2.2.2 _ _ (by norm_num) (by norm_num) (by norm_num)⟩
  exact sampling_degenerate_params.2.2.1 [] 2 [[(1 : ℚ), 0]] (-1) (fun _ => 0)
    (by norm_num) (by simp) (by norm_num) (by norm_num) (by norm_num)

end AudiocraftUtils
